import Mathlib

/-!
Verification development for the content-addressed chunk storage core of the
holisticode/swarm repository: the BMT hasher with its tree pool (src/bmt/bmt.go),
the hasher store pipeline and the network store (src/storage and the storage
part of the sources).  Go byte slices are embedded as `List Nat` (each entry a
byte value), machine integers as `Nat`, stateful code as explicit state
passing, and fallible code as `Option`.  The concurrent section writers of the
BMT hasher are embedded by their deterministic sequential outcome: sections
are dispatched left to right and each dispatched hash climbs the tree exactly
as `writeNode` / `writeFinalNode` do, which on the final path substitutes the
precomputed zero-subtree digest for every missing right sibling.
-/

namespace Swarm

/-- Byte strings are lists of byte values. -/
abbrev Bytes := List Nat

/-- LengthToSpan (bmt.go): 8-byte little-endian representation of a length,
after the Go conversion of the length to uint64. -/
def lengthToSpan (l : Nat) : Bytes :=
  (List.range 8).map (fun i => l % 2 ^ 64 / 256 ^ i % 256)

/-- Modelled from the spec: ChunkData.Size of the chunk package (not under
src/) reads the 8-byte span prefix as a little-endian uint64. -/
def spanValue (b : Bytes) : Nat :=
  (b.take 8).foldr (fun x acc => x + 256 * acc) 0

/-- Loop body of calculateDepthFor (bmt.go): the Go loop starts with c = 2 and
doubles c while c < n, counting in d; the embedding stores c - 2 in the
accumulator (so the doubling step c := 2 * c becomes c2 := 2 * c2 + 2), which
makes the measure n - (c2 + 2) decrease unconditionally. -/
def calcDepthGo (n d c2 : Nat) : Nat :=
  if c2 + 2 < n then calcDepthGo n (d + 1) (2 * c2 + 2) else d + 1
termination_by n - c2
decreasing_by omega

/-- calculateDepthFor (bmt.go): the number of levels in the BMT tree over n
base segments. -/
def calculateDepthFor (n : Nat) : Nat := calcDepthGo n 0 0

/-- Zero-subtree digest table of NewTreePool (bmt.go): zerohashes[0] is a zero
segment and zerohashes[i+1] = hash(zerohashes[i] ‖ zerohashes[i]). -/
def zerohashes (H : Bytes → Bytes) (segSize : Nat) : Nat → Bytes
  | 0 => List.replicate segSize 0
  | i + 1 => H (zerohashes H segSize i ++ zerohashes H segSize i)

/-- TreePool (bmt.go): the base hasher (a pure function on byte strings in the
embedding), the segment size (stipulated to equal the base hash output size),
the count of base segments and the tree depth.  The pool bookkeeping
(channel, capacity, count) is embedded in the `Hasher` state below as
checkout counters. -/
structure TreePool where
  hasher : Bytes → Bytes
  SegmentSize : Nat
  SegmentCount : Nat
  Depth : Nat

/-- NewTreePool (bmt.go): the segment size is the base hash output size and
the depth is calculated from the segment count (the capacity argument only
configures the elided pool bookkeeping). -/
def newTreePool (hasher : Bytes → Bytes) (segmentCount : Nat) : TreePool :=
  { hasher := hasher
    SegmentSize := (hasher []).length
    SegmentCount := segmentCount
    Depth := calculateDepthFor segmentCount }

/-- Size field set by NewTreePool (bmt.go): segmentCount * segmentSize. -/
def TreePool.Size (p : TreePool) : Nat := p.SegmentCount * p.SegmentSize

/-- Section size of the hasher: a section is a double segment (bmt.go). -/
def TreePool.secsize (p : TreePool) : Nat := 2 * p.SegmentSize

/-- Lookup in the zerohashes table of the pool (bmt.go). -/
def TreePool.zerohash (p : TreePool) (i : Nat) : Bytes :=
  zerohashes p.hasher p.SegmentSize i

/-- Splitting of the sequentially written data into sections, with section
size s1 + 1: Hasher.Write (bmt.go) copies input left to right into successive
section buffers of fixed size.  The last returned section may be short.  The
first argument is recursion fuel: every step consumes at least one byte, so
fuel b.length always suffices. -/
def toSectionsGo (s1 : Nat) : Nat → Bytes → List Bytes
  | 0, b => [b]
  | fuel + 1, b =>
    if b.length ≤ s1 + 1 then [b]
    else b.take (s1 + 1) :: toSectionsGo s1 fuel (b.drop (s1 + 1))

/-- Section buffers produced by Hasher.Write followed by the final dispatch in
Hasher.Sum (bmt.go): every section buffer is allocated at full section size
and the unwritten tail stays zero, so the last (possibly partial) section is
zero padded. -/
def toSections (secsize : Nat) (b : Bytes) : List Bytes :=
  (toSectionsGo (secsize - 1) b.length b).map
    (fun s => s ++ List.replicate (secsize - s.length) 0)

/-- One level of the climb of writeFinalNode (bmt.go): adjacent sibling hashes
combine to hash(left ‖ right); a hash on the final path with no right sibling
combines with the zero-subtree digest Z L of its level. -/
def writeFinalLevel (H : Bytes → Bytes) (Z : Nat → Bytes) (L : Nat) :
    List Bytes → List Bytes
  | [] => []
  | [x] => [H (x ++ Z L)]
  | x :: y :: rest => H (x ++ y) :: writeFinalLevel H Z L rest

/-- Iterated climb over k levels starting at level L: the deterministic
outcome of the concurrent writeNode / writeFinalNode threads of bmt.go. -/
def bmtCombine (H : Bytes → Bytes) (Z : Nat → Bytes) :
    Nat → Nat → List Bytes → List Bytes
  | 0, _, xs => xs
  | k + 1, L, xs => bmtCombine H Z k (L + 1) (writeFinalLevel H Z L xs)

/-- Root hash of the BMT over the written data (bmt.go): section hashes are
the base hashes of the section buffers (writeSection), and they climb
Depth - 1 levels to the root. -/
def bmtRoot (p : TreePool) (b : Bytes) : Bytes :=
  (bmtCombine p.hasher p.zerohash (p.Depth - 1) 1
    ((toSections p.secsize b).map p.hasher)).headD []

/-- Writer-visible state of the checked out tree (bmt.go struct tree): since
writes are sequential, the section buffers dispatched so far plus the open
section are embedded as the concatenation `data` of all bytes written. -/
structure BmtTree where
  cursor : Nat
  offset : Nat
  data : Bytes
  span : Option Bytes

/-- Clean tree as handed out by the pool (bmt.go newTree / release reset). -/
def freshTree : BmtTree := ⟨0, 0, [], none⟩

/-- Hasher (bmt.go) together with the pool interaction that the claims are
about: `reserves` counts TreePool.reserve calls (trees checked out from the
pool) and `releases` counts trees given back. -/
structure Hasher where
  pool : TreePool
  size : Nat
  bmt : Option BmtTree
  reserves : Nat
  releases : Nat

/-- New (bmt.go): a fresh Hasher holds no tree. -/
def Hasher.new (p : TreePool) : Hasher := ⟨p, 0, none, 0, 0⟩

/-- Hasher.getTree (bmt.go): returns the held tree, otherwise reserves a
clean one from the pool and records the checkout. -/
def Hasher.getTree (h : Hasher) : BmtTree × Hasher :=
  match h.bmt with
  | some t => (t, h)
  | none => (freshTree, { h with bmt := some freshTree, reserves := h.reserves + 1 })

/-- Hasher.releaseTree (bmt.go): gives the held tree (if any) back to the
pool in reset state. -/
def Hasher.releaseTree (h : Hasher) : Hasher :=
  match h.bmt with
  | none => h
  | some _ => { h with bmt := none, releases := h.releases + 1 }

/-- Hasher.SetSpan (bmt.go): stores the 8-byte span for the length on the
tree (checking a tree out if none is held). -/
def Hasher.setSpan (h : Hasher) (l : Nat) : Hasher :=
  let th := h.getTree
  { th.2 with bmt := some { th.1 with span := some (lengthToSpan l) } }

/-- Hasher.Write (bmt.go): sequential write.  Empty or oversized input is
ignored before any tree interaction.  Otherwise the input is copied into the
open section; full sections are dispatched (the loop advancing smax by one
section size per dispatched section runs k iterations), and cursor and offset
are advanced exactly as in the source.  Each of the k dispatched WriteSection
calls additionally adds one full section buffer length to size (bmt.go lines
440-444); those asynchronous increments complete before the result is
observed and are accounted for here. -/
def Hasher.write (h : Hasher) (b : Bytes) : Hasher :=
  let l := b.length
  if l = 0 ∨ l > h.pool.Size then h
  else
    let th := h.getTree
    let t := th.1
    let h1 : Hasher := { th.2 with size := th.2.size + l }
    let secsize := h.pool.secsize
    let smax := secsize - t.offset
    if t.offset < secsize ∧ l ≤ smax then
      { h1 with bmt := some { t with data := t.data ++ b, offset := t.offset + l } }
    else if secsize ≤ t.offset ∧ t.cursor = h.pool.SegmentCount * 2 then
      h1
    else
      let k := (l - smax + secsize - 1) / secsize
      { h1 with
        size := h1.size + k * secsize,
        bmt := some { t with
          data := t.data ++ b,
          cursor := t.cursor + k,
          offset := l + secsize - (smax + k * secsize) } }

/-- Hasher.Sum (bmt.go): obtains the tree via getTree, short-circuits to the
full-depth zero-subtree digest when nothing was written (size 0 and section
offset 0), and otherwise dispatches the final section (whose WriteSection
call adds the full section buffer length to size before the result channel
delivers), waits for the root and returns hash(span ‖ root), deriving the
span from size only when none was set; in both branches the tree goes back
to the pool. -/
def Hasher.sum (h : Hasher) : Bytes × Hasher :=
  let th := h.getTree
  let t := th.1
  let h1 : Hasher := { th.2 with bmt := some t }
  if h1.size = 0 ∧ t.offset = 0 then
    (h.pool.zerohash h.pool.Depth, h1.releaseTree)
  else
    let h2 : Hasher := { h1 with size := h1.size + h.pool.secsize }
    let root := bmtRoot h.pool t.data
    let span := t.span.getD (lengthToSpan h2.size)
    (h.pool.hasher (span ++ root), h2.releaseTree)

/-- BMT address of a payload under an explicitly set span length: the
Reset / SetSpan / Write / Sum sequence of the synchronous Hasher interface
(bmt.go). -/
def bmtAddress (p : TreePool) (spanLen : Nat) (b : Bytes) : Bytes :=
  (((Hasher.new p).setSpan spanLen).write b).sum.1

/-- Hasher.SetSpanBytes (bmt.go): copies the given bytes into a freshly
allocated 8-byte span buffer (missing bytes stay zero). -/
def Hasher.setSpanBytes (h : Hasher) (b : Bytes) : Hasher :=
  let th := h.getTree
  let sp := b.take 8 ++ List.replicate (8 - b.length) 0
  { th.2 with bmt := some { th.1 with span := some sp } }

/-- Modelled from the spec: AddressLength of the storage package (its types
file is not under src/); the spec fixes the address length S = 32. -/
def AddressLength : Nat := 32

/-- Modelled from the spec: encryption.KeyLength (package encryption is not
under src/); the spec fixes the key length K = 32. -/
def KeyLength : Nat := 32

/-- Modelled from the spec: chunk.DefaultSize (package chunk is not under
src/); the spec fixes the chunk payload capacity C = 4096. -/
def chunkDefaultSize : Nat := 4096

/-- Canonical content hash size of the hasher store: hashSize is
hashFunc().Size() in NewHasherStore, 32 bytes for the Keccak-based
SwarmHasher per the spec. -/
def storeHashSize : Nat := 32

/-- The noOfStorageWorkers constant of the hasher store source: the bound on
concurrent storage worker goroutines. -/
def noOfStorageWorkers : Nat := 150

/-- Error outcomes of the storage layer, as distinguishable Go error values. -/
inductive Err where
  | noSuitablePeer
  | invalidChunkData
  | other (msg : String)
deriving DecidableEq, Repr

/-- The hasher store configuration relevant to the claims: the toEncrypt flag
chosen at NewHasherStore time (hashSize is the canonical 32). -/
structure HStore where
  toEncrypt : Bool
deriving DecidableEq, Repr

/-- NewHasherStore: refSize = hashSize, plus encryption.KeyLength when
encrypting. -/
def HStore.refSize (h : HStore) : Nat :=
  if h.toEncrypt then storeHashSize + KeyLength else storeHashSize

/-- XOR of a byte string with a keystream, starting at keystream index i.
Bytes are values below 256, on which Nat.xor agrees with byte XOR. -/
def xorKeystream (ks : Nat → Nat) : Nat → Bytes → Bytes
  | _, [] => []
  | i, x :: xs => (x ^^^ ks i) :: xorKeystream ks (i + 1) xs

/-- Modelled from the spec: encryption.Encryption.Encrypt (package encryption
is not under src/).  The encryptor is a keystream generator derived from the
key alone (given by the sponge abstraction G applied to the key and the
initial counter); with a nonzero padding parameter the input is padded to
that length before the XOR (inputs longer than the padding are rejected), and
the same operation serves both directions. -/
def encApply (G : Bytes → Nat → Nat → Nat) (key : Bytes) (padding initCtr : Nat)
    (data : Bytes) : Option Bytes :=
  if padding ≠ 0 ∧ padding < data.length then none
  else if padding = 0 then some (xorKeystream (G key initCtr) 0 data)
  else some (xorKeystream (G key initCtr) 0
    (data ++ List.replicate (padding - data.length) 0))

/-- hasherStore.newSpanEncryption: padding 0 and initial counter
chunk.DefaultSize / refSize. -/
def newSpanEncryption (G : Bytes → Nat → Nat → Nat) (h : HStore) (key : Bytes)
    (data : Bytes) : Option Bytes :=
  encApply G key 0 (chunkDefaultSize / h.refSize) data

/-- hasherStore.newDataEncryption: padding chunk.DefaultSize and initial
counter 0. -/
def newDataEncryption (G : Bytes → Nat → Nat → Nat) (key : Bytes)
    (data : Bytes) : Option Bytes :=
  encApply G key chunkDefaultSize 0 data

/-- hasherStore.encrypt: encrypts the 8-byte span with the span encryptor and
the data with the data encryptor, both instantiated from the same key (the
key is freshly random in the source; the embedding takes the drawn key as an
argument). -/
def hasherStoreEncrypt (G : Bytes → Nat → Nat → Nat) (h : HStore) (key : Bytes)
    (chunkData : Bytes) : Option (Bytes × Bytes) :=
  match newSpanEncryption G h key (chunkData.take 8) with
  | none => none
  | some encryptedSpan =>
    match newDataEncryption G key (chunkData.drop 8) with
    | none => none
    | some encryptedData => some (encryptedSpan, encryptedData)

/-- hasherStore.decrypt: applies the very same Encrypt operation of the span
and data encryptors, instantiated identically from the key. -/
def hasherStoreDecrypt (G : Bytes → Nat → Nat → Nat) (h : HStore) (key : Bytes)
    (chunkData : Bytes) : Option (Bytes × Bytes) :=
  match newSpanEncryption G h key (chunkData.take 8) with
  | none => none
  | some decryptedSpan =>
    match newDataEncryption G key (chunkData.drop 8) with
    | none => none
    | some decryptedData => some (decryptedSpan, decryptedData)

/-- hasherStore.encryptChunkData: rejects payloads shorter than 8 bytes with
the invalid chunk data error, otherwise returns the reassembled encrypted
payload together with the encryption key. -/
def encryptChunkData (G : Bytes → Nat → Nat → Nat) (h : HStore) (key : Bytes)
    (chunkData : Bytes) : Option (Bytes × Bytes) :=
  if chunkData.length < 8 then none
  else
    match hasherStoreEncrypt G h key chunkData with
    | none => none
    | some (encryptedSpan, encryptedData) =>
      some (encryptedSpan ++ encryptedData, key)

/-- Loop of hasherStore.decryptChunkData trimming the padding: while the
length exceeds chunk.DefaultSize, length becomes
(length + (DefaultSize - 1)) / DefaultSize * refSize, computed on Go uint64,
so the addition and the multiplication wrap modulo 2^64: for a span of at
least 2^64 - (DefaultSize - 1) the wrapped sum is below DefaultSize and the
division yields 0.  The loop terminates because refSize is 32 or 64 and a
wrapped value is below 2^64. -/
def decryptLengthLoop (h : HStore) (length : Nat) : Nat :=
  if length > chunkDefaultSize then
    decryptLengthLoop h
      ((length + (chunkDefaultSize - 1)) % 2 ^ 64 / chunkDefaultSize * h.refSize % 2 ^ 64)
  else length
termination_by length
decreasing_by
  simp only [HStore.refSize, chunkDefaultSize, storeHashSize, KeyLength] at *
  split <;> omega

/-- The meaningful-length rule exactly as the spec words it, for comparison
with the source loop: while length > C, length ← ⌈length/C⌉ · refSize (with
⌈a/b⌉ = (a + b - 1) / b on naturals). -/
def specMeaningfulLength (refSizeIsSixtyFour : Bool) (length : Nat) : Nat :=
  if chunkDefaultSize < length then
    specMeaningfulLength refSizeIsSixtyFour
      ((length + chunkDefaultSize - 1) / chunkDefaultSize *
        (if refSizeIsSixtyFour then 64 else 32))
  else length
termination_by length
decreasing_by
  simp only [chunkDefaultSize] at *
  split <;> omega

/-- hasherStore.decryptChunkData: rejects payloads shorter than 8 bytes,
decrypts span and data, computes the meaningful length from the decrypted
span by the trimming loop, and returns the decrypted span followed by exactly
that many decrypted data bytes (the Go slice decryptedData[:length] is within
bounds because the data encryptor pads its output to chunk.DefaultSize and
the trimmed length never exceeds that, so List.take is exact here). -/
def decryptChunkData (G : Bytes → Nat → Nat → Nat) (h : HStore) (key : Bytes)
    (chunkData : Bytes) : Option Bytes :=
  if chunkData.length < 8 then none
  else
    match hasherStoreDecrypt G h key chunkData with
    | none => none
    | some (decryptedSpan, decryptedData) =>
      let length := decryptLengthLoop h (spanValue decryptedSpan)
      some (decryptedSpan ++ decryptedData.take length)

/-- hasherStore.createHash: Reset, SetSpanBytes with the first 8 bytes, Write
with the rest, Sum. -/
def createHash (p : TreePool) (chunkData : Bytes) : Bytes :=
  (((Hasher.new p).setSpanBytes (chunkData.take 8)).write (chunkData.drop 8)).sum.1

/-- Reference returned by hasherStore.Put: the chunk address, with the
encryption key appended when the store encrypts (the storeChunk submission
itself is asynchronous and embedded separately). -/
def hasherStorePut (G : Bytes → Nat → Nat → Nat) (p : TreePool) (h : HStore)
    (key : Bytes) (chunkData : Bytes) : Option Bytes :=
  if h.toEncrypt then
    match encryptChunkData G h key chunkData with
    | none => none
    | some (c, encryptionKey) => some (createHash p c ++ encryptionKey)
  else some (createHash p chunkData)

/-- parseReference: a reference is either a bare address (length
AddressLength) or an address followed by an encryption key (length
hashSize + KeyLength); anything else is an invalid reference length error. -/
def parseReference (ref : Bytes) (hashSize : Nat) : Option (Bytes × Option Bytes) :=
  if ref.length = AddressLength then some (ref, none)
  else if ref.length = hashSize + KeyLength then
    some (ref.take (ref.length - KeyLength), some (ref.drop (ref.length - KeyLength)))
  else none

/-- Events consumed by the completion task hasherStore.startWait, in the
order the single consumer receives them: a context cancellation, the close of
doneC (by hasherStore.Close), or one per-chunk outcome from the error channel
(none for a successful local-store write). -/
inductive WaitEvent where
  | ctxDone (e : Err)
  | closed
  | chunkResult (r : Option Err)
deriving DecidableEq, Repr

/-- Loop of hasherStore.startWait: done records a closed doneC, stored counts
successfully stored chunks; the first non-nil chunk error is published and
the task exits, and once done holds and stored reaches the submission count
the task publishes nil.  The result is none while the task is still waiting,
some w once w is published on the wait channel. -/
def startWaitGo (nrChunks : Nat) : Bool → Nat → List WaitEvent → Option (Option Err)
  | _, _, [] => none
  | _, _, WaitEvent.ctxDone e :: _ => some (some e)
  | _, stored, WaitEvent.closed :: rest =>
    if stored ≥ nrChunks then some none
    else startWaitGo nrChunks true stored rest
  | _, _, WaitEvent.chunkResult (some e) :: _ => some (some e)
  | done, stored, WaitEvent.chunkResult none :: rest =>
    if done ∧ stored + 1 ≥ nrChunks then some none
    else startWaitGo nrChunks done (stored + 1) rest

/-- hasherStore.startWait run from its initial state (not done, nothing
stored yet) over the received events; nrChunks is the number of submitted
chunks. -/
def startWait (nrChunks : Nat) (events : List WaitEvent) : Option (Option Err) :=
  startWaitGo nrChunks false 0 events

/-- Occupancy bookkeeping of the storage worker semaphore (the buffered
channel h.workers of capacity noOfStorageWorkers): acquired counts goroutines
holding a slot whose local-store Put has not started, putting counts
in-flight local-store Put calls, donePut counts goroutines whose Put has
returned but whose deferred slot release has not run yet. -/
structure WorkerState where
  acquired : Nat
  putting : Nat
  donePut : Nat
deriving DecidableEq, Repr

/-- Number of slots of the worker channel currently held. -/
def WorkerState.slots (s : WorkerState) : Nat := s.acquired + s.putting + s.donePut

/-- Transitions of hasherStore.storeChunk: the send on h.workers blocks
unless a slot is free (acquire); the spawned task begins its local-store Put
(beginPut), the Put returns (endPut), and the deferred receive releases the
slot only afterwards (release). -/
inductive WorkerStep : WorkerState → WorkerState → Prop where
  | acquire (s : WorkerState) : s.slots < noOfStorageWorkers →
      WorkerStep s ⟨s.acquired + 1, s.putting, s.donePut⟩
  | beginPut (s : WorkerState) : 0 < s.acquired →
      WorkerStep s ⟨s.acquired - 1, s.putting + 1, s.donePut⟩
  | endPut (s : WorkerState) : 0 < s.putting →
      WorkerStep s ⟨s.acquired, s.putting - 1, s.donePut + 1⟩
  | release (s : WorkerState) : 0 < s.donePut →
      WorkerStep s ⟨s.acquired, s.putting, s.donePut - 1⟩

/-- States reachable from a hasher store with no submission yet. -/
inductive WorkerReachable : WorkerState → Prop where
  | init : WorkerReachable ⟨0, 0, 0⟩
  | step {s s' : WorkerState} : WorkerReachable s → WorkerStep s s' →
      WorkerReachable s'

/-- Fetcher (netstore.go): the one-shot delivery record.  onceDone is the
consumed flag of the sync.Once, chunkSlot the Chunk field, deliveredClosed
whether the Delivered channel has been closed. -/
structure Fetcher where
  onceDone : Bool
  chunkSlot : Option Bytes
  deliveredClosed : Bool
deriving DecidableEq, Repr

/-- NewFetcher (netstore.go). -/
def Fetcher.new : Fetcher := ⟨false, none, false⟩

/-- Fetcher.SafeClose (netstore.go): under the sync.Once, the delivered chunk
is written to the Chunk slot and then the Delivered channel is closed; every
later call is a no-op.  The boolean reports whether this call performed the
close. -/
def safeClose (f : Fetcher) (ch : Bytes) : Fetcher × Bool :=
  if f.onceDone then (f, false)
  else (⟨true, some ch, true⟩, true)

/-- A sequence of deliveries of the same address from the request and syncing
paths, as serialized by the sync.Once of SafeClose (every NetStore.Put of the
chunk invokes SafeClose on the fetcher); returns the final fetcher state and
how many of the calls closed the Delivered channel. -/
def deliverAll (f : Fetcher) (cs : List Bytes) : Fetcher × Nat :=
  cs.foldl (fun fc c =>
    let r := safeClose fc.1 c
    (r.1, fc.2 + if r.2 then 1 else 0)) (f, 0)

/-- Outcome of the three-way select of one iteration of NetStore.RemoteFetch
(netstore.go): the fetcher's Delivered channel fires, the per-attempt
SearchTimeout elapses, or the caller's context is done. -/
inductive SelectOutcome where
  | delivered (ch : Bytes)
  | searchTimeout
  | ctxDone (e : Err)
deriving DecidableEq, Repr

/-- One iteration of the RemoteFetch loop: what the RemoteGet collaborator
returned (a peer, or any error), and how the subsequent select resolved. -/
structure FetchAttempt where
  remoteGet : Except Err Nat
  select : SelectOutcome

/-- NetStore.RemoteFetch (netstore.go): iterate over attempts; any RemoteGet
error makes the whole fetch return ErrNoSuitablePeer at once; otherwise the
chosen peer joins the skip set and the select decides: a delivery returns the
chunk, a search timeout loops, a done context returns the context error.  The
result is none if the given attempts are exhausted while still looping. -/
def remoteFetch (skip : List Nat) : List FetchAttempt → Option (Except Err Bytes × List Nat)
  | [] => none
  | a :: rest =>
    match a.remoteGet with
    | Except.error _ => some (Except.error Err.noSuitablePeer, skip)
    | Except.ok peer =>
      match a.select with
      | SelectOutcome.delivered ch => some (Except.ok ch, skip ++ [peer])
      | SelectOutcome.searchTimeout => remoteFetch (skip ++ [peer]) rest
      | SelectOutcome.ctxDone e => some (Except.error e, skip ++ [peer])

/-- Concrete base hash used to instantiate the pluggable BaseHasherFunc in
witnesses: a one-byte digest recording the input length. -/
def testHash : Bytes → Bytes := fun xs => [xs.length % 256]

/-- Concrete pool over testHash with two base segments (depth 1, as
NewTreePool computes for two segments). -/
def testPool : TreePool := ⟨testHash, 1, 2, 1⟩

/-- Concrete pool over testHash with four base segments (depth 2, as
NewTreePool computes for four segments). -/
def testPool4 : TreePool := ⟨testHash, 1, 4, 2⟩

/-- Concrete 32-byte base hash used by witnesses that need the canonical
segment size: a constant-like digest recording the input length in every
byte. -/
def testHash32 : Bytes → Bytes := fun xs => List.replicate 32 (xs.length % 256)

/-- Concrete pool with the canonical segment size 32 and canonical segment
count 128 over testHash32 (depth 7, as NewTreePool computes for 128
segments). -/
def testPool32 : TreePool := ⟨testHash32, 32, 128, 7⟩

/-- Trivial keystream abstraction used by witnesses: the all-zero
keystream. -/
def zeroKeystream : Bytes → Nat → Nat → Nat := fun _ _ _ => 0

end Swarm

namespace Swarm

/-! ### Theorems -/

/-- C10: whenever the RemoteGet collaborator returns any error, RemoteFetch
terminates at once with ErrNoSuitablePeer, with the collaborator's error
discarded: for any two distinct RemoteGet errors the result is the same, so
callers cannot distinguish genuine peer-set exhaustion from other RemoteGet
failures. -/
theorem remoteFetch_remoteGet_error (skip : List Nat) (e e' : Err)
    (o o' : SelectOutcome) (rest rest' : List FetchAttempt) :
    remoteFetch skip ({ remoteGet := Except.error e, select := o } :: rest) =
        some (Except.error Err.noSuitablePeer, skip) ∧
      remoteFetch skip ({ remoteGet := Except.error e, select := o } :: rest) =
        remoteFetch skip ({ remoteGet := Except.error e', select := o' } :: rest') :=
  ⟨rfl, rfl⟩

/-- C9 helper: once the sync.Once of a fetcher has been consumed, every
further delivery leaves the fetcher untouched and closes nothing. -/
theorem deliverAll_after_consumed (f : Fetcher) (hf : f.onceDone = true)
    (cs : List Bytes) (n : Nat) :
    cs.foldl (fun fc c =>
      let r := safeClose fc.1 c
      (r.1, fc.2 + if r.2 then 1 else 0)) (f, n) = (f, n) := by
  induction cs with
  | nil => rfl
  | cons c cs ih => simpa [safeClose, hf] using ih

/-- C9: for any nonempty sequence of deliveries of the same chunk address
(request path and syncing path serialized by the sync.Once inside SafeClose),
the Delivered channel is closed exactly once, and in the resulting fetcher
the Chunk slot holds the chunk of the delivery that performed the close (the
slot is written inside the same once-guarded block, before the close), so a
waiter unblocked by the close reads the delivered chunk. -/
theorem fetcher_one_shot_delivery (c : Bytes) (cs : List Bytes) :
    (deliverAll Fetcher.new (c :: cs)).2 = 1 ∧
      (deliverAll Fetcher.new (c :: cs)).1.deliveredClosed = true ∧
      (deliverAll Fetcher.new (c :: cs)).1.chunkSlot = some c := by
  have h : deliverAll Fetcher.new (c :: cs) = (⟨true, some c, true⟩, 1) := by
    unfold deliverAll
    simp only [List.foldl_cons, safeClose, Fetcher.new]
    exact deliverAll_after_consumed ⟨true, some c, true⟩ rfl cs 1
  rw [h]
  exact ⟨rfl, rfl, rfl⟩

/-- C8 helper: every reachable state of the worker semaphore holds at most
noOfStorageWorkers slots. -/
theorem workerReachable_slots_le (s : WorkerState) (h : WorkerReachable s) :
    s.slots ≤ noOfStorageWorkers := by
  induction h with
  | init => decide
  | step hr hstep ih =>
    cases hstep with
    | acquire hl => simp [WorkerState.slots] at *; omega
    | beginPut hl => simp [WorkerState.slots] at *; omega
    | endPut hl => simp [WorkerState.slots] at *; omega
    | release hl => simp [WorkerState.slots] at *; omega

/-- C8: in every state reachable by the storeChunk protocol, the number of
local-store Put calls in flight never exceeds noOfStorageWorkers = 150: a
slot of the worker channel is acquired before the store task starts and is
released only after its Put has completed. -/
theorem storeChunk_worker_bound (s : WorkerState) (h : WorkerReachable s) :
    s.putting ≤ noOfStorageWorkers ∧ noOfStorageWorkers = 150 := by
  refine ⟨le_trans ?_ (workerReachable_slots_le s h), rfl⟩
  simp only [WorkerState.slots]
  omega

/-- C8 witness: the bound instantiated at a concretely reached state (one
slot acquired, its Put begun). -/
theorem storeChunk_worker_bound_witness :
    WorkerReachable ⟨0, 1, 0⟩ ∧
      (WorkerState.putting ⟨0, 1, 0⟩ ≤ noOfStorageWorkers ∧ noOfStorageWorkers = 150) := by
  have h1 : WorkerReachable ⟨1, 0, 0⟩ :=
    WorkerReachable.step WorkerReachable.init (WorkerStep.acquire ⟨0, 0, 0⟩ (by decide))
  have h2 : WorkerReachable ⟨0, 1, 0⟩ :=
    WorkerReachable.step h1 (WorkerStep.beginPut ⟨1, 0, 0⟩ (by decide))
  exact ⟨h2, storeChunk_worker_bound ⟨0, 1, 0⟩ h2⟩

/-- Helper: the zero-subtree digests all have the base hash output length. -/
theorem zerohashes_length (H : Bytes → Bytes) (s : Nat)
    (hH : ∀ xs, (H xs).length = s) : ∀ i, (zerohashes H s i).length = s := by
  intro i
  induction i with
  | zero => simp [zerohashes]
  | succ i ih => simp [zerohashes, hH]

/-- Helper: both branches of Sum return a digest of the base hash output
length. -/
theorem Hasher.sum_length (h : Hasher)
    (hH : ∀ xs, (h.pool.hasher xs).length = h.pool.SegmentSize) :
    h.sum.1.length = h.pool.SegmentSize := by
  unfold Hasher.sum
  dsimp only
  split
  · exact zerohashes_length _ _ hH _
  · exact hH _

/-- Helper: setSpanBytes does not change the pool of the hasher. -/
theorem Hasher.pool_setSpanBytes (h : Hasher) (b : Bytes) :
    (h.setSpanBytes b).pool = h.pool := by
  unfold Hasher.setSpanBytes Hasher.getTree
  cases h.bmt <;> rfl

/-- Helper: write does not change the pool of the hasher. -/
theorem Hasher.pool_write (h : Hasher) (b : Bytes) :
    (h.write b).pool = h.pool := by
  unfold Hasher.write Hasher.getTree
  dsimp only
  split
  · rfl
  · cases h.bmt <;> dsimp only <;> split <;> first | rfl | (split <;> rfl)

/-- Helper: createHash always returns a digest of the segment size. -/
theorem createHash_length (p : TreePool) (cd : Bytes)
    (hH : ∀ xs, (p.hasher xs).length = p.SegmentSize) :
    (createHash p cd).length = p.SegmentSize := by
  unfold createHash
  have hp : (((Hasher.new p).setSpanBytes (cd.take 8)).write (cd.drop 8)).pool = p := by
    rw [Hasher.pool_write, Hasher.pool_setSpanBytes]
    rfl
  have h := Hasher.sum_length (((Hasher.new p).setSpanBytes (cd.take 8)).write (cd.drop 8))
    (by rw [hp]; exact hH)
  rw [hp] at h
  exact h

/-- C3: parseReference accepts exactly the two reference lengths S = 32
(bare address, no key) and S + K = 64 (address followed by the encryption
key) and rejects every other length; and hasherStore.Put hands back a
reference of length S when encryption is off and S + K when it is on, so the
reference length alone tells whether the chunk is encrypted. -/
theorem parseReference_put_reference_lengths
    (ref : Bytes) (G : Bytes → Nat → Nat → Nat) (p : TreePool) (hst : HStore)
    (key cd r : Bytes)
    (hH : ∀ xs, (p.hasher xs).length = p.SegmentSize)
    (hseg : p.SegmentSize = AddressLength)
    (hkey : key.length = KeyLength)
    (hput : hasherStorePut G p hst key cd = some r) :
    (ref.length = AddressLength → parseReference ref storeHashSize = some (ref, none)) ∧
    (ref.length = AddressLength + KeyLength →
      parseReference ref storeHashSize =
        some (ref.take AddressLength, some (ref.drop AddressLength))) ∧
    (ref.length ≠ AddressLength → ref.length ≠ AddressLength + KeyLength →
      parseReference ref storeHashSize = none) ∧
    r.length = (if hst.toEncrypt then AddressLength + KeyLength else AddressLength) := by
  refine ⟨?_, ?_, ?_, ?_⟩
  · intro hl
    simp [parseReference, hl, AddressLength, storeHashSize, KeyLength]
  · intro hl
    simp [parseReference, hl, AddressLength, storeHashSize, KeyLength]
  · intro h1 h2
    simp only [AddressLength] at h1
    simp only [AddressLength, KeyLength] at h2
    simp [parseReference, AddressLength, storeHashSize, KeyLength, h1, h2]
  · unfold hasherStorePut at hput
    split at hput
    · rename_i henc
      rcases he : encryptChunkData G hst key cd with _ | ⟨c, k⟩
      · rw [he] at hput
        exact absurd hput (by simp)
      · rw [he] at hput
        simp only [Option.some.injEq] at hput
        subst hput
        have hk : k = key := by
          unfold encryptChunkData at he
          split at he
          · exact absurd he (by simp)
          · rcases hse : hasherStoreEncrypt G hst key cd with _ | ⟨es, ed⟩
            · rw [hse] at he
              exact absurd he (by simp)
            · rw [hse] at he
              simp only [Option.some.injEq, Prod.mk.injEq] at he
              exact he.2.symm
        subst hk
        simp [henc, List.length_append, createHash_length p _ hH, hseg, hkey]
    · rename_i henc
      simp only [Option.some.injEq] at hput
      subst hput
      simp only [Bool.not_eq_true] at henc
      simp [henc, createHash_length p _ hH, hseg]

/-- C3 witness: the lengths instantiated at a 64-byte reference and an
unencrypted put of an 8-byte payload over the canonical 32-byte pool. -/
theorem parseReference_put_reference_lengths_witness :
    (∀ xs, (TreePool.hasher testPool32 xs).length = testPool32.SegmentSize) ∧
    hasherStorePut zeroKeystream testPool32 ⟨false⟩ (List.replicate 32 1)
        (List.replicate 8 0) = some (List.replicate 32 64) ∧
    (((List.replicate 64 3 : Bytes).length = AddressLength →
        parseReference (List.replicate 64 3) storeHashSize =
          some (List.replicate 64 3, none)) ∧
      ((List.replicate 64 3 : Bytes).length = AddressLength + KeyLength →
        parseReference (List.replicate 64 3) storeHashSize =
          some ((List.replicate 64 3 : Bytes).take AddressLength,
            some ((List.replicate 64 3 : Bytes).drop AddressLength))) ∧
      ((List.replicate 64 3 : Bytes).length ≠ AddressLength →
        (List.replicate 64 3 : Bytes).length ≠ AddressLength + KeyLength →
        parseReference (List.replicate 64 3) storeHashSize = none) ∧
      (List.replicate 32 64 : Bytes).length =
        (if HStore.toEncrypt ⟨false⟩ then AddressLength + KeyLength else AddressLength)) := by
  have hH : ∀ xs, (TreePool.hasher testPool32 xs).length = testPool32.SegmentSize := by
    intro xs
    simp [testPool32, testHash32]
  have hput : hasherStorePut zeroKeystream testPool32 ⟨false⟩ (List.replicate 32 1)
      (List.replicate 8 0) = some (List.replicate 32 64) := by decide
  exact ⟨hH, hput,
    parseReference_put_reference_lengths (List.replicate 64 3) zeroKeystream testPool32
      ⟨false⟩ (List.replicate 32 1) (List.replicate 8 0) (List.replicate 32 64)
      hH rfl (by decide) hput⟩

/-- C4 (amended): encryptChunkData and decryptChunkData reject exactly the
payloads shorter than 8 bytes with the invalid chunk data error; a payload of
at least 8 bytes whose data part fits in a chunk is always accepted by both,
so in particular a data part shorter than the meaningful length implied by
the decrypted span is not rejected. -/
theorem chunkData_min_length_errors (G : Bytes → Nat → Nat → Nat) (hst : HStore)
    (key cd cd' : Bytes) (h8 : cd.length < 8) (h8' : 8 ≤ cd'.length)
    (hC' : cd'.length ≤ 8 + chunkDefaultSize) :
    encryptChunkData G hst key cd = none ∧
    decryptChunkData G hst key cd = none ∧
    (encryptChunkData G hst key cd').isSome = true ∧
    (decryptChunkData G hst key cd').isSome = true := by
  have h0 : ¬chunkDefaultSize = 0 := by decide
  have h1 : ¬chunkDefaultSize < cd'.length - 8 := by
    simp only [chunkDefaultSize] at hC' ⊢
    omega
  have hdec : hasherStoreDecrypt G hst key cd' =
      some (xorKeystream (G key (chunkDefaultSize / hst.refSize)) 0 (cd'.take 8),
        xorKeystream (G key 0) 0
          (cd'.drop 8 ++ List.replicate (chunkDefaultSize - (cd'.length - 8)) 0)) := by
    unfold hasherStoreDecrypt newSpanEncryption newDataEncryption encApply
    simp [h0, h1]
  have henc : hasherStoreEncrypt G hst key cd' =
      some (xorKeystream (G key (chunkDefaultSize / hst.refSize)) 0 (cd'.take 8),
        xorKeystream (G key 0) 0
          (cd'.drop 8 ++ List.replicate (chunkDefaultSize - (cd'.length - 8)) 0)) := by
    unfold hasherStoreEncrypt newSpanEncryption newDataEncryption encApply
    simp [h0, h1]
  refine ⟨?_, ?_, ?_, ?_⟩
  · simp [encryptChunkData, h8]
  · simp [decryptChunkData, h8]
  · simp [encryptChunkData, Nat.not_lt.mpr h8', henc]
  · simp [decryptChunkData, Nat.not_lt.mpr h8', hdec]

/-- C4 witness: the error and success branches instantiated at a 3-byte and
an 8-byte payload. -/
theorem chunkData_min_length_errors_witness :
    ([1, 2, 3] : Bytes).length < 8 ∧ 8 ≤ (lengthToSpan 0).length ∧
    (encryptChunkData zeroKeystream ⟨true⟩ (List.replicate 32 0) [1, 2, 3] = none ∧
      decryptChunkData zeroKeystream ⟨true⟩ (List.replicate 32 0) [1, 2, 3] = none ∧
      (encryptChunkData zeroKeystream ⟨true⟩ (List.replicate 32 0) (lengthToSpan 0)).isSome = true ∧
      (decryptChunkData zeroKeystream ⟨true⟩ (List.replicate 32 0) (lengthToSpan 0)).isSome = true) :=
  ⟨by decide, by decide,
    chunkData_min_length_errors zeroKeystream ⟨true⟩ (List.replicate 32 0) [1, 2, 3]
      (lengthToSpan 0) (by decide) (by decide) (by decide)⟩

/-- Helper: the section splitter ignores its fuel as long as the fuel covers
the input length. -/
theorem toSectionsGo_fuel (s1 : Nat) :
    ∀ fuel fuel' (b : Bytes), b.length ≤ fuel → b.length ≤ fuel' →
      toSectionsGo s1 fuel b = toSectionsGo s1 fuel' b
  | 0, 0, b, _, _ => rfl
  | 0, fuel' + 1, b, h1, _ => by
    have hb : b = [] := List.length_eq_zero.mp (by omega)
    subst hb
    simp [toSectionsGo]
  | fuel + 1, 0, b, _, h2 => by
    have hb : b = [] := List.length_eq_zero.mp (by omega)
    subst hb
    simp [toSectionsGo]
  | fuel + 1, fuel' + 1, b, h1, h2 => by
    simp only [toSectionsGo]
    split
    · rfl
    · rename_i hlen
      rw [toSectionsGo_fuel s1 fuel fuel' (b.drop (s1 + 1))
        (by simp only [List.length_drop]; omega)
        (by simp only [List.length_drop]; omega)]

/-- Helper: a write of at most one section yields a single zero-padded
section buffer. -/
theorem toSections_small (s : Nat) (b : Bytes) (hb : b.length ≤ s) :
    toSections s b = [b ++ List.replicate (s - b.length) 0] := by
  unfold toSections
  cases hfuel : b.length with
  | zero =>
    have hb0 : b = [] := List.length_eq_zero.mp hfuel
    subst hb0
    simp [toSectionsGo]
  | succ n =>
    simp only [toSectionsGo]
    rw [if_pos (by omega)]
    simp [hfuel]

/-- Helper: a write longer than one section peels off a first full section
buffer. -/
theorem toSections_big (s : Nat) (hs : 0 < s) (b : Bytes) (hb : s < b.length) :
    toSections s b = b.take s :: toSections s (b.drop s) := by
  unfold toSections
  cases hfuel : b.length with
  | zero => omega
  | succ n =>
    simp only [toSectionsGo]
    rw [if_neg (by omega)]
    have hs1 : s - 1 + 1 = s := by omega
    rw [hs1]
    simp only [List.map_cons]
    congr 1
    · have htl : (b.take s).length = s := by
        simp only [List.length_take]
        omega
      simp [htl]
    · rw [toSectionsGo_fuel (s - 1) n (b.drop s).length (b.drop s)
        (by simp only [List.length_drop]; omega) (le_refl _)]

/-- Helper: an all-zero write of a whole number of sections splits into that
many zero section buffers. -/
theorem toSections_zeros (s : Nat) (hs : 0 < s) :
    ∀ j, toSections s (List.replicate ((j + 1) * s) 0) =
      List.replicate (j + 1) (List.replicate s 0)
  | 0 => by
    rw [toSections_small s _ (by simp)]
    simp
  | j + 1 => by
    have hlt : s < (j + 1 + 1) * s := by
      have h2 : 2 * s ≤ (j + 1 + 1) * s := Nat.mul_le_mul_right s (by omega)
      omega
    rw [toSections_big s hs _ (by simpa using hlt)]
    rw [List.take_replicate, List.drop_replicate]
    have hmin : s ⊓ ((j + 1 + 1) * s) = s := by omega
    have hsub : (j + 1 + 1) * s - s = (j + 1) * s := by
      have h : (j + 1 + 1) * s = (j + 1) * s + s := by ring
      omega
    rw [hmin, hsub, toSections_zeros s hs j]
    rfl

/-- Helper: the number of section buffers of a write of q sections (the last
one r bytes short) is q. -/
theorem toSections_length (s : Nat) (hs : 0 < s) :
    ∀ (q : Nat) (b : Bytes) (r : Nat), 0 < b.length → b.length + r = q * s →
      r < s → (toSections s b).length = q
  | 0, b, r, hb, hqr, hr => by
    simp only [Nat.zero_mul] at hqr
    omega
  | q + 1, b, r, hb, hqr, hr => by
    by_cases hlen : b.length ≤ s
    · have hq0 : q = 0 := by
        rcases Nat.eq_zero_or_pos q with h | h
        · exact h
        · exfalso
          have h2 : 2 * s ≤ (q + 1) * s := Nat.mul_le_mul_right s (by omega)
          omega
      subst hq0
      rw [toSections_small s b hlen]
      rfl
    · push_neg at hlen
      rw [toSections_big s hs b hlen]
      have hq : 0 < q := by
        rcases Nat.eq_zero_or_pos q with h | h
        · exfalso
          subst h
          omega
        · exact h
      simp only [List.length_cons]
      rw [toSections_length s hs q (b.drop s) r
        (by simp only [List.length_drop]; omega)
        (by
          simp only [List.length_drop]
          have h : (q + 1) * s = q * s + s := by ring
          omega)
        hr]

/-- Helper: appending the zero bytes that complete the final partial section
(r bytes) plus j further zero sections appends j zero section buffers. -/
theorem toSections_append_zeros (s : Nat) (hs : 0 < s) :
    ∀ (q : Nat) (b : Bytes) (r j : Nat), 0 < b.length → b.length + r = q * s →
      r < s →
      toSections s (b ++ List.replicate (r + j * s) 0) =
        toSections s b ++ List.replicate j (List.replicate s 0)
  | 0, b, r, j, hb, hqr, hr => by
    simp only [Nat.zero_mul] at hqr
    omega
  | q + 1, b, r, j, hb, hqr, hr => by
    by_cases hlen : b.length ≤ s
    · have hq0 : q = 0 := by
        rcases Nat.eq_zero_or_pos q with h | h
        · exact h
        · exfalso
          have h2 : 2 * s ≤ (q + 1) * s := Nat.mul_le_mul_right s (by omega)
          omega
      subst hq0
      have hrs : b.length + r = s := by omega
      cases j with
      | zero =>
        have h0 : r + 0 * s = r := by omega
        rw [h0]
        rw [toSections_small s (b ++ List.replicate r 0) (by
          simp only [List.length_append, List.length_replicate]
          omega)]
        rw [toSections_small s b hlen]
        have hlen2 : (b ++ List.replicate r 0).length = b.length + r := by
          simp
        rw [hlen2]
        rw [List.append_assoc, ← List.replicate_add]
        have hcnt : r + (s - (b.length + r)) = s - b.length := by omega
        rw [hcnt]
        simp
      | succ j' =>
        have hbig : s < (b ++ List.replicate (r + (j' + 1) * s) 0).length := by
          simp only [List.length_append, List.length_replicate]
          have h2 : 1 * s ≤ (j' + 1) * s := Nat.mul_le_mul_right s (by omega)
          omega
        rw [toSections_big s hs _ hbig]
        have htake : (b ++ List.replicate (r + (j' + 1) * s) 0).take s =
            b ++ List.replicate r 0 := by
          rw [List.take_append_eq_append_take]
          rw [List.take_of_length_le (by omega), List.take_replicate]
          congr 1
          have h1 : s - b.length = r := by omega
          rw [h1]
          congr 1
          exact min_eq_left (by omega)
        have hdrop : (b ++ List.replicate (r + (j' + 1) * s) 0).drop s =
            List.replicate ((j' + 1) * s) 0 := by
          rw [List.drop_append_eq_append_drop]
          rw [List.drop_eq_nil_of_le (by omega), List.drop_replicate]
          simp only [List.nil_append]
          congr 1
          omega
        rw [htake, hdrop, toSections_zeros s hs j']
        rw [toSections_small s b hlen]
        have hpad : List.replicate r (0 : Nat) = List.replicate (s - b.length) 0 := by
          congr 1
          omega
        rw [hpad]
        rfl
    · push_neg at hlen
      have hbig : s < (b ++ List.replicate (r + j * s) 0).length := by
        simp only [List.length_append, List.length_replicate]
        omega
      rw [toSections_big s hs b hlen, toSections_big s hs _ hbig]
      rw [List.take_append_of_le_length (by omega)]
      rw [List.drop_append_of_le_length (by omega)]
      rw [toSections_append_zeros s hs q (b.drop s) r j
        (by simp only [List.length_drop]; omega)
        (by
          simp only [List.length_drop]
          have h : (q + 1) * s = q * s + s := by ring
          omega)
        hr]
      rfl

/-- Helper: one climb level halves the number of hashes, rounding up. -/
theorem writeFinalLevel_length (H : Bytes → Bytes) (Z : Nat → Bytes) (L : Nat) :
    ∀ xs : List Bytes, (writeFinalLevel H Z L xs).length = (xs.length + 1) / 2
  | [] => by simp [writeFinalLevel]
  | [x] => by simp [writeFinalLevel]
  | x :: y :: rest => by
    simp only [writeFinalLevel, List.length_cons,
      writeFinalLevel_length H Z L rest]
    omega

/-- Helper: a climb level over zero-subtree digests pairs them into the
digests of the next level. -/
theorem writeFinalLevel_zeros (H : Bytes → Bytes) (s L : Nat) :
    ∀ j, writeFinalLevel H (zerohashes H s) L
        (List.replicate (2 * j) (zerohashes H s L)) =
      List.replicate j (zerohashes H s (L + 1))
  | 0 => by simp [writeFinalLevel]
  | j + 1 => by
    have h2 : 2 * (j + 1) = 2 * j + 1 + 1 := by omega
    rw [h2, List.replicate_succ, List.replicate_succ]
    show writeFinalLevel H (zerohashes H s) L
        (zerohashes H s L :: zerohashes H s L :: List.replicate (2 * j) (zerohashes H s L)) = _
    rw [writeFinalLevel, writeFinalLevel_zeros H s L j, List.replicate_succ]
    rfl

/-- Helper: on a level of even total width, trailing zero-subtree digests
pass through a climb level as the corresponding number of next-level
digests. -/
theorem writeFinalLevel_append (H : Bytes → Bytes) (s L : Nat) :
    ∀ (xs : List Bytes) (j : Nat), (xs.length + j) % 2 = 0 →
      writeFinalLevel H (zerohashes H s) L
          (xs ++ List.replicate j (zerohashes H s L)) =
        writeFinalLevel H (zerohashes H s) L xs ++
          List.replicate ((xs.length + j) / 2 - (xs.length + 1) / 2)
            (zerohashes H s (L + 1))
  | [], j, hpar => by
    simp only [List.length_nil, Nat.zero_add] at hpar
    have hj : j = 2 * (j / 2) := by omega
    rw [List.nil_append]
    conv_lhs => rw [hj]
    rw [writeFinalLevel_zeros]
    simp only [writeFinalLevel, List.nil_append, List.length_nil, Nat.zero_add]
    congr 1
  | [x], j, hpar => by
    cases j with
    | zero => simp at hpar
    | succ j' =>
      rw [List.replicate_succ]
      show H (x ++ zerohashes H s L) :: writeFinalLevel H (zerohashes H s) L
          (List.replicate j' (zerohashes H s L)) = _
      have hj' : j' = 2 * (j' / 2) := by
        simp only [List.length_cons, List.length_nil] at hpar
        omega
      conv_lhs => rw [hj']
      rw [writeFinalLevel_zeros]
      show H (x ++ zerohashes H s L) :: List.replicate (j' / 2) (zerohashes H s (L + 1)) =
        [H (x ++ zerohashes H s L)] ++
          List.replicate ((List.length [x] + (j' + 1)) / 2 - (List.length [x] + 1) / 2)
            (zerohashes H s (L + 1))
      simp only [List.length_cons, List.length_nil, List.cons_append, List.nil_append,
        List.cons.injEq, true_and]
      congr 1
      omega
  | x :: y :: rest, j, hpar => by
    simp only [List.cons_append, writeFinalLevel, List.append_eq]
    rw [writeFinalLevel_append H s L rest j (by
      simp only [List.length_cons] at hpar
      omega)]
    simp only [List.cons_append, List.length_cons]
    have hcnt : (rest.length + j) / 2 - (rest.length + 1) / 2 =
        (rest.length + 1 + 1 + j) / 2 - (rest.length + 1 + 1 + 1) / 2 := by omega
    rw [hcnt]

/-- Helper: when the hashes present plus the missing (all-zero) subtrees fill
a complete binary tree of k further levels, the climb gives the same root
with or without the explicit trailing zero-subtree digests. -/
theorem bmtCombine_append_zeros (H : Bytes → Bytes) (s : Nat) :
    ∀ (k L : Nat) (xs : List Bytes) (j : Nat), 0 < xs.length →
      xs.length + j = 2 ^ k →
      bmtCombine H (zerohashes H s) k L
          (xs ++ List.replicate j (zerohashes H s L)) =
        bmtCombine H (zerohashes H s) k L xs
  | 0, L, xs, j, hpos, hcount => by
    have hj : j = 0 := by
      simp only [pow_zero] at hcount
      omega
    subst hj
    simp
  | k + 1, L, xs, j, hpos, hcount => by
    have h2k : (2 : Nat) ^ (k + 1) = 2 * 2 ^ k := by ring
    simp only [bmtCombine]
    rw [writeFinalLevel_append H s L xs j (by omega)]
    rw [bmtCombine_append_zeros H s k (L + 1) (writeFinalLevel H (zerohashes H s) L xs)
      ((xs.length + j) / 2 - (xs.length + 1) / 2)
      (by rw [writeFinalLevel_length]; omega)
      (by rw [writeFinalLevel_length]; omega)]

/-- Helper: the depth loop on a power of two computes the exponent. -/
theorem calcDepthGo_pow : ∀ (k d : Nat),
    calcDepthGo (2 ^ (d + 1 + k)) d (2 ^ (d + 1) - 2) = d + 1 + k
  | 0, d => by
    rw [calcDepthGo.eq_def]
    have h2 : 2 ≤ 2 ^ (d + 1) := by
      calc (2 : Nat) = 2 ^ 1 := by ring
      _ ≤ 2 ^ (d + 1) := Nat.pow_le_pow_right (by omega) (by omega)
    have he : d + 1 + 0 = d + 1 := rfl
    rw [he]
    rw [if_neg (by omega)]
  | k + 1, d => by
    rw [calcDepthGo.eq_def]
    have h2 : 2 ≤ 2 ^ (d + 1) := by
      calc (2 : Nat) = 2 ^ 1 := by ring
      _ ≤ 2 ^ (d + 1) := Nat.pow_le_pow_right (by omega) (by omega)
    have hlt : 2 ^ (d + 1) < 2 ^ (d + 1 + (k + 1)) :=
      Nat.pow_lt_pow_right (by omega) (by omega)
    rw [if_pos (by omega)]
    have harg : 2 * (2 ^ (d + 1) - 2) + 2 = 2 ^ (d + 1 + 1) - 2 := by
      have hp : (2 : Nat) ^ (d + 1 + 1) = 2 * 2 ^ (d + 1) := by ring
      omega
    have hexp : d + 1 + (k + 1) = (d + 1) + 1 + k := by omega
    rw [harg, hexp]
    exact calcDepthGo_pow k (d + 1)

/-- Helper: NewTreePool computes depth m for 2^m base segments. -/
theorem calculateDepthFor_pow (m : Nat) (hm : 1 ≤ m) :
    calculateDepthFor (2 ^ m) = m := by
  have h := calcDepthGo_pow (m - 1) 0
  have hexp : 0 + 1 + (m - 1) = m := by omega
  rw [hexp] at h
  have h0 : (2 : Nat) ^ (0 + 1) - 2 = 0 := by norm_num
  rw [h0] at h
  unfold calculateDepthFor
  rw [h]

/-- Helper: the SetSpan / Write / Sum pipeline on a nonempty payload within
the pool size hashes the span with the BMT root of the written data. -/
theorem bmtAddress_nonempty (p : TreePool) (sl : Nat) (b : Bytes)
    (hss : 0 < p.SegmentSize) (hb : 0 < b.length) (hsz : b.length ≤ p.Size) :
    bmtAddress p sl b = p.hasher (lengthToSpan sl ++ bmtRoot p b) := by
  unfold bmtAddress
  have hset : (Hasher.new p).setSpan sl =
      ⟨p, 0, some ⟨0, 0, [], some (lengthToSpan sl)⟩, 1, 0⟩ := rfl
  rw [hset]
  unfold Hasher.write Hasher.getTree
  dsimp only
  rw [if_neg (by omega)]
  split_ifs with hA hB
  · unfold Hasher.sum Hasher.getTree Hasher.releaseTree
    dsimp only
    rw [if_neg (by omega)]
    simp
  · exact absurd hB.1 (by
      simp only [TreePool.secsize] at hB ⊢
      omega)
  · unfold Hasher.sum Hasher.getTree Hasher.releaseTree
    dsimp only
    rw [if_neg (by omega)]
    simp

/-- Helper: padding the written data with zero bytes up to the pool size does
not change the BMT root: the explicit zero sections hash level by level to
the very zero-subtree digests that writeFinalNode substitutes for the missing
right siblings. -/
theorem bmtRoot_pad (p : TreePool) (m : Nat) (b : Bytes) (hm : 1 ≤ m)
    (hsc : p.SegmentCount = 2 ^ m) (hd : p.Depth = m) (hss : 0 < p.SegmentSize)
    (hb : 0 < b.length) (hsz : b.length ≤ p.Size) :
    bmtRoot p (b ++ List.replicate (p.Size - b.length) 0) = bmtRoot p b := by
  have hs : 0 < p.secsize := by
    simp only [TreePool.secsize]
    omega
  have hdm := Nat.div_add_mod (b.length + p.secsize - 1) p.secsize
  have hmod : (b.length + p.secsize - 1) % p.secsize < p.secsize :=
    Nat.mod_lt _ hs
  set q := (b.length + p.secsize - 1) / p.secsize with hqdef
  have hcomm : q * p.secsize = p.secsize * q := Nat.mul_comm _ _
  have hge : b.length ≤ q * p.secsize := by omega
  have hlt2 : q * p.secsize ≤ b.length + p.secsize - 1 := by omega
  have hqr : b.length + (q * p.secsize - b.length) = q * p.secsize := by omega
  have hrlt : q * p.secsize - b.length < p.secsize := by omega
  have hq1 : 1 ≤ q := by
    cases hq : q with
    | zero =>
      exfalso
      rw [hq] at hge
      simp only [Nat.zero_mul] at hge
      omega
    | succ n => omega
  have hpow : (2 : Nat) ^ m = 2 ^ (m - 1) * 2 := by
    have h1 : m - 1 + 1 = m := by omega
    calc (2 : Nat) ^ m = 2 ^ (m - 1 + 1) := by rw [h1]
    _ = 2 ^ (m - 1) * 2 := pow_succ 2 (m - 1)
  have hSize : p.Size = 2 ^ (m - 1) * p.secsize := by
    simp only [TreePool.Size, TreePool.secsize, hsc, hpow]
    ring
  have hqle : q ≤ 2 ^ (m - 1) := by
    have hq2 : q * p.secsize < (2 ^ (m - 1) + 1) * p.secsize := by
      have h1 : (2 ^ (m - 1) + 1) * p.secsize = 2 ^ (m - 1) * p.secsize + p.secsize := by
        ring
      omega
    have := Nat.lt_of_mul_lt_mul_right hq2
    omega
  have hjsum : q + (2 ^ (m - 1) - q) = 2 ^ (m - 1) := by omega
  have hdecomp : p.Size - b.length =
      (q * p.secsize - b.length) + (2 ^ (m - 1) - q) * p.secsize := by
    have h1 : (q + (2 ^ (m - 1) - q)) * p.secsize =
        q * p.secsize + (2 ^ (m - 1) - q) * p.secsize := by ring
    rw [hjsum] at h1
    omega
  rw [hdecomp]
  unfold bmtRoot
  rw [toSections_append_zeros p.secsize hs q b (q * p.secsize - b.length)
    (2 ^ (m - 1) - q) hb hqr hrlt]
  rw [List.map_append, List.map_replicate]
  have hzfun : p.zerohash = zerohashes p.hasher p.SegmentSize := rfl
  have hz1 : p.hasher (List.replicate p.secsize 0) =
      zerohashes p.hasher p.SegmentSize 1 := by
    show _ = p.hasher (List.replicate p.SegmentSize 0 ++ List.replicate p.SegmentSize 0)
    rw [← List.replicate_add]
    congr 2
    simp only [TreePool.secsize]
    omega
  rw [hz1, hzfun]
  congr 1
  have hlen : (((toSections p.secsize b).map p.hasher)).length = q := by
    rw [List.length_map]
    exact toSections_length p.secsize hs q b (q * p.secsize - b.length) hb hqr hrlt
  have hcount : (((toSections p.secsize b).map p.hasher)).length +
      (2 ^ (m - 1) - q) = 2 ^ (p.Depth - 1) := by
    rw [hlen, hd]
    omega
  exact bmtCombine_append_zeros p.hasher p.SegmentSize (p.Depth - 1) 1
    ((toSections p.secsize b).map p.hasher) (2 ^ (m - 1) - q)
    (by rw [hlen]; omega) hcount

/-- C2 (amended): for every nonempty payload shorter than the pool's data
capacity C, hashed with the span set to the payload length, the BMT address
equals the address of the payload zero-padded to C under the same span: on
the final write path every missing right sibling at level L is substituted by
the zero-subtree digest Z[L], where Z[0] is one zero segment and
Z[i+1] = hash(Z[i] ‖ Z[i]), which is exactly what the explicit zero sections
hash to level by level (and NewTreePool computes depth m for 2^m segments). -/
theorem bmtAddress_zero_padding (p : TreePool) (m : Nat) (b : Bytes) (hm : 1 ≤ m)
    (hsc : p.SegmentCount = 2 ^ m) (hd : p.Depth = m) (hss : 0 < p.SegmentSize)
    (hb : 0 < b.length) (hlt : b.length < p.Size) :
    bmtAddress p b.length b =
      bmtAddress p b.length (b ++ List.replicate (p.Size - b.length) 0) ∧
    p.zerohash 0 = List.replicate p.SegmentSize 0 ∧
    (∀ i, p.zerohash (i + 1) = p.hasher (p.zerohash i ++ p.zerohash i)) ∧
    (newTreePool p.hasher (2 ^ m)).Depth = m := by
  refine ⟨?_, rfl, fun i => rfl, calculateDepthFor_pow m hm⟩
  have hplen : (b ++ List.replicate (p.Size - b.length) 0).length = p.Size := by
    simp only [List.length_append, List.length_replicate]
    omega
  rw [bmtAddress_nonempty p b.length b hss hb (le_of_lt hlt)]
  rw [bmtAddress_nonempty p b.length (b ++ List.replicate (p.Size - b.length) 0)
    hss (by omega) (by omega)]
  rw [bmtRoot_pad p m b hm hsc hd hss hb (le_of_lt hlt)]

/-- C2 witness: the padding equivalence instantiated at a one-byte payload
over the four-segment test pool (C = 4). -/
theorem bmtAddress_zero_padding_witness :
    (0 < ([5] : Bytes).length ∧ ([5] : Bytes).length < testPool4.Size) ∧
    (bmtAddress testPool4 ([5] : Bytes).length [5] =
        bmtAddress testPool4 ([5] : Bytes).length
          ([5] ++ List.replicate (testPool4.Size - ([5] : Bytes).length) 0) ∧
      testPool4.zerohash 0 = List.replicate testPool4.SegmentSize 0 ∧
      (∀ i, testPool4.zerohash (i + 1) =
        testPool4.hasher (testPool4.zerohash i ++ testPool4.zerohash i)) ∧
      (newTreePool testPool4.hasher (2 ^ 2)).Depth = 2) :=
  ⟨⟨by decide, by decide⟩,
    bmtAddress_zero_padding testPool4 2 [5] (by decide) (by decide) (by decide)
      (by decide) (by decide) (by decide)⟩

/-- C2 counterexample: the claim quantifies over every payload with length
below C, but for the empty payload it fails: Sum short-circuits the empty
input to the zero-subtree digest Z[D] while the zero-padded payload hashes to
hash(span ‖ root), and the two differ already over the two-segment test
pool. -/
theorem bmtAddress_empty_payload_differs :
    (List.length ([] : Bytes) < testPool.Size) ∧
    bmtAddress testPool (List.length ([] : Bytes)) [] ≠
      bmtAddress testPool (List.length ([] : Bytes))
        ([] ++ List.replicate (testPool.Size - List.length ([] : Bytes)) 0) := by
  constructor
  · decide
  · decide

/-- Helper: before doneC closes, successful store acknowledgements only
advance the stored counter. -/
theorem startWaitGo_all_none_not_done (n : Nat) (rs : List (Option Err))
    (hall : ∀ r ∈ rs, r = none) (stored : Nat) (tail : List WaitEvent) :
    startWaitGo n false stored (rs.map WaitEvent.chunkResult ++ tail) =
      startWaitGo n false (stored + rs.length) tail := by
  induction rs generalizing stored with
  | nil => simp
  | cons r rs ih =>
    have hr : r = none := hall r (by simp)
    subst hr
    simp only [List.map_cons, List.cons_append, startWaitGo]
    rw [if_neg (by simp)]
    simp only [List.append_eq]
    rw [ih (fun r hr => hall r (by simp [hr])) (stored + 1)]
    simp only [List.length_cons]
    congr 1
    omega

/-- Helper: after doneC has closed, a run of successful acknowledgements
completing the submission count makes the loop publish nil. -/
theorem startWaitGo_done_all_none (n : Nat) (rs : List (Option Err))
    (hall : ∀ r ∈ rs, r = none) : ∀ stored, rs ≠ [] → stored + rs.length = n →
    startWaitGo n true stored (rs.map WaitEvent.chunkResult) = some none := by
  induction rs with
  | nil => intro stored hne; exact absurd rfl hne
  | cons r rs ih =>
    intro stored hne hcount
    have hr : r = none := hall r (by simp)
    subst hr
    simp only [List.map_cons, startWaitGo]
    by_cases hrs : rs = []
    · subst hrs
      simp only [List.length_cons, List.length_nil] at hcount
      rw [if_pos ⟨trivial, by omega⟩]
    · rw [if_neg (by
        simp only [List.length_cons] at hcount
        have : rs.length ≥ 1 := List.length_pos.mpr hrs
        intro hcontra
        omega)]
      exact ih (fun r hr => hall r (by simp [hr])) (stored + 1) hrs
        (by simp only [List.length_cons] at hcount; omega)

/-- Helper: the first failing acknowledgement is published, whatever events
follow it (the exiting loop never consumes them). -/
theorem startWaitGo_first_error (n : Nat) (e : Err) (post : List (Option Err))
    (tail : List WaitEvent) (pre : List (Option Err))
    (hall : ∀ r ∈ pre, r = none) : ∀ (done : Bool) (stored : Nat),
    (done = true → stored + pre.length < n) →
    startWaitGo n done stored
        ((pre ++ some e :: post).map WaitEvent.chunkResult ++ tail) =
      some (some e) := by
  induction pre with
  | nil =>
    intro done stored _
    simp [startWaitGo]
  | cons r pre ih =>
    intro done stored hbound
    have hr : r = none := hall r (by simp)
    subst hr
    simp only [List.cons_append, List.map_cons, List.cons_append, startWaitGo]
    cases done with
    | false =>
      rw [if_neg (by simp)]
      exact ih (fun r hr => hall r (by simp [hr])) false (stored + 1) (by simp)
    | true =>
      have hlt : stored + (pre.length + 1) < n := by
        simpa using hbound rfl
      rw [if_neg (by intro hcontra; omega)]
      exact ih (fun r hr => hall r (by simp [hr])) true (stored + 1)
        (fun _ => by omega)

/-- Helper: a list of per-chunk outcomes that are not all successes splits at
its first error. -/
theorem first_error_decomp (rs : List (Option Err)) (h : ¬ ∀ r ∈ rs, r = none) :
    ∃ pre e post, rs = pre ++ some e :: post ∧ ∀ r ∈ pre, r = none := by
  induction rs with
  | nil => exact absurd (by simp) h
  | cons r rs ih =>
    cases r with
    | some e => exact ⟨[], e, rs, rfl, by simp⟩
    | none =>
      have h' : ¬ ∀ r ∈ rs, r = none := by
        intro hh
        exact h (by
          intro r hr
          rcases List.mem_cons.mp hr with hr1 | hr2
          · exact hr1
          · exact hh r hr2)
      obtain ⟨pre, e, post, heq, hallpre⟩ := ih h'
      refine ⟨none :: pre, e, post, by simp [heq], ?_⟩
      intro r hr
      rcases List.mem_cons.mp hr with hr1 | hr2
      · exact hr1
      · exact hallpre r hr2

/-- C7: with the n = |rs1| + |rs2| submitted chunks acknowledged around the
close of doneC (rs1 before Close, rs2 after), Wait publishes nil exactly when
every one of the n store writes succeeded; and whenever some write fails,
Wait publishes the first error received on the error channel, the loop
exiting without consuming the later outcomes. -/
theorem putWait_completeness (rs1 rs2 : List (Option Err)) :
    (startWait (rs1.length + rs2.length)
        (rs1.map WaitEvent.chunkResult ++
          WaitEvent.closed :: rs2.map WaitEvent.chunkResult) = some none ↔
      ∀ r ∈ rs1 ++ rs2, r = none) ∧
    (∀ pre e post, rs1 ++ rs2 = pre ++ some e :: post → (∀ r ∈ pre, r = none) →
      startWait (rs1.length + rs2.length)
          (rs1.map WaitEvent.chunkResult ++
            WaitEvent.closed :: rs2.map WaitEvent.chunkResult) = some (some e)) := by
  have hpart2 : ∀ pre e post, rs1 ++ rs2 = pre ++ some e :: post →
      (∀ r ∈ pre, r = none) →
      startWait (rs1.length + rs2.length)
          (rs1.map WaitEvent.chunkResult ++
            WaitEvent.closed :: rs2.map WaitEvent.chunkResult) = some (some e) := by
    intro pre e post hsplit hallpre
    rcases List.append_eq_append_iff.mp hsplit with ⟨a, hpre, hrs2⟩ | ⟨b, hrs1, hpost⟩
    · -- the first error lies in rs2: pre = rs1 ++ a, rs2 = a ++ some e :: post
      have hallrs1 : ∀ r ∈ rs1, r = none := by
        intro r hr
        exact hallpre r (by rw [hpre]; exact List.mem_append_left a hr)
      have halla : ∀ r ∈ a, r = none := by
        intro r hr
        exact hallpre r (by rw [hpre]; exact List.mem_append_right rs1 hr)
      unfold startWait
      rw [startWaitGo_all_none_not_done _ rs1 hallrs1 0]
      simp only [startWaitGo, Nat.zero_add]
      rw [if_neg (by
        subst hrs2
        simp only [List.length_append, List.length_cons]
        omega)]
      subst hrs2
      have := startWaitGo_first_error (rs1.length + (a ++ some e :: post).length)
        e post [] a halla true rs1.length
        (fun _ => by simp only [List.length_append, List.length_cons]; omega)
      simpa using this
    · -- b = [] puts the error at the head of rs2; otherwise it lies in rs1
      cases b with
      | nil =>
        simp only [List.append_nil] at hrs1
        simp only [List.nil_append] at hpost
        subst hpost
        have hallrs1 : ∀ r ∈ rs1, r = none := by
          intro r hr
          exact hallpre r (hrs1 ▸ hr)
        unfold startWait
        rw [startWaitGo_all_none_not_done _ rs1 hallrs1 0]
        simp only [startWaitGo, Nat.zero_add]
        rw [if_neg (by simp only [List.length_cons]; omega)]
      | cons b0 b' =>
        simp only [List.cons_append, List.cons.injEq] at hpost
        obtain ⟨hb0, hpost'⟩ := hpost
        subst hb0
        subst hrs1
        unfold startWait
        have := startWaitGo_first_error (((pre ++ some e :: b')).length + rs2.length)
          e b' (WaitEvent.closed :: rs2.map WaitEvent.chunkResult) pre hallpre false 0
          (by simp)
        simpa using this
  refine ⟨⟨?_, ?_⟩, hpart2⟩
  · intro hnil
    by_contra hnotall
    obtain ⟨pre, e, post, hsplit, hallpre⟩ := first_error_decomp (rs1 ++ rs2) hnotall
    have := hpart2 pre e post hsplit hallpre
    rw [this] at hnil
    simp at hnil
  · intro hall
    have hallrs1 : ∀ r ∈ rs1, r = none := fun r hr => hall r (List.mem_append_left _ hr)
    have hallrs2 : ∀ r ∈ rs2, r = none := fun r hr => hall r (List.mem_append_right _ hr)
    unfold startWait
    rw [startWaitGo_all_none_not_done _ rs1 hallrs1 0]
    simp only [startWaitGo, Nat.zero_add]
    by_cases hrs2 : rs2 = []
    · subst hrs2
      rw [if_pos (by simp)]
    · rw [if_neg (by
        have : rs2.length ≥ 1 := List.length_pos.mpr hrs2
        omega)]
      exact startWaitGo_done_all_none _ rs2 hallrs2 rs1.length hrs2 rfl

/-- C1 (amended): Sum over a hasher with nothing written (size 0 and section
offset 0) returns the precomputed zero-subtree digest Z[D] of the full depth
D of the pool; however Sum first obtains a tree through getTree, so when the
hasher holds no tree one IS checked out from the pool, and it is released
back before Sum returns. -/
theorem sum_empty_returns_zerohash (h : Hasher) (hsize : h.size = 0)
    (hoff : h.getTree.1.offset = 0) :
    h.sum.1 = h.pool.zerohash h.pool.Depth ∧
    h.sum.2.bmt = none ∧
    h.sum.2.releases = h.getTree.2.releases + 1 ∧
    h.sum.2.reserves = h.getTree.2.reserves ∧
    (h.bmt = none → h.sum.2.reserves = h.reserves + 1) := by
  cases hb : h.bmt with
  | none =>
    refine ⟨?_, ?_, ?_, ?_, ?_⟩ <;>
      simp [Hasher.sum, Hasher.getTree, Hasher.releaseTree, hb, hsize, freshTree]
  | some t =>
    have hoff' : t.offset = 0 := by
      unfold Hasher.getTree at hoff
      rw [hb] at hoff
      exact hoff
    refine ⟨?_, ?_, ?_, ?_, ?_⟩ <;>
      simp [Hasher.sum, Hasher.getTree, Hasher.releaseTree, hb, hsize, hoff']

/-- C1 witness: the amended behaviour instantiated at a fresh hasher over the
depth-1 test pool. -/
theorem sum_empty_returns_zerohash_witness :
    (Hasher.new testPool).size = 0 ∧
    ((Hasher.new testPool).sum.1 =
        (Hasher.new testPool).pool.zerohash (Hasher.new testPool).pool.Depth ∧
      (Hasher.new testPool).sum.2.bmt = none ∧
      (Hasher.new testPool).sum.2.releases = (Hasher.new testPool).getTree.2.releases + 1 ∧
      (Hasher.new testPool).sum.2.reserves = (Hasher.new testPool).getTree.2.reserves ∧
      ((Hasher.new testPool).bmt = none →
        (Hasher.new testPool).sum.2.reserves = (Hasher.new testPool).reserves + 1)) :=
  ⟨rfl, sum_empty_returns_zerohash (Hasher.new testPool) rfl rfl⟩

/-- C1 counterexample: Sum on a fresh hasher with nothing written does return
the full-depth zero-subtree digest, but the pool reservation count afterwards
is 1, not 0: a tree was checked out from the pool, refuting the no-checkout
part of the claim. -/
theorem sum_empty_checks_out_tree :
    (Hasher.new testPool).sum.1 = TreePool.zerohash testPool testPool.Depth ∧
    (Hasher.new testPool).sum.2.reserves = 1 ∧
    (Hasher.new testPool).sum.2.reserves ≠ 0 := by decide

/-- Helper: the keystream XOR preserves length. -/
theorem xorKeystream_length (ks : Nat → Nat) :
    ∀ i xs, (xorKeystream ks i xs).length = List.length xs := by
  intro i xs
  induction xs generalizing i with
  | nil => rfl
  | cons x xs ih => simp [xorKeystream, ih]

/-- Helper: applying the same keystream twice gives the input back, since XOR
is its own inverse. -/
theorem xorKeystream_involution (ks : Nat → Nat) :
    ∀ i xs, xorKeystream ks i (xorKeystream ks i xs) = xs := by
  intro i xs
  induction xs generalizing i with
  | nil => rfl
  | cons x xs ih =>
    simp only [xorKeystream, ih, List.cons.injEq, and_true]
    rw [Nat.xor_assoc, Nat.xor_self, Nat.xor_zero]

/-- Helper: shape of hasherStoreEncrypt on a payload whose data part fits in
a chunk. -/
theorem hasherStoreEncrypt_eq (G : Bytes → Nat → Nat → Nat) (hst : HStore)
    (key cd : Bytes) (hC : cd.length ≤ 8 + chunkDefaultSize) :
    hasherStoreEncrypt G hst key cd =
      some (xorKeystream (G key (chunkDefaultSize / hst.refSize)) 0 (cd.take 8),
        xorKeystream (G key 0) 0
          (cd.drop 8 ++ List.replicate (chunkDefaultSize - (cd.length - 8)) 0)) := by
  have h0 : ¬chunkDefaultSize = 0 := by decide
  have h1 : ¬chunkDefaultSize < cd.length - 8 := by
    simp only [chunkDefaultSize] at hC ⊢
    omega
  unfold hasherStoreEncrypt newSpanEncryption newDataEncryption encApply
  simp [h0, h1]

/-- Helper: shape of hasherStoreDecrypt on a payload whose data part fits in
a chunk. -/
theorem hasherStoreDecrypt_eq (G : Bytes → Nat → Nat → Nat) (hst : HStore)
    (key cd : Bytes) (hC : cd.length ≤ 8 + chunkDefaultSize) :
    hasherStoreDecrypt G hst key cd =
      some (xorKeystream (G key (chunkDefaultSize / hst.refSize)) 0 (cd.take 8),
        xorKeystream (G key 0) 0
          (cd.drop 8 ++ List.replicate (chunkDefaultSize - (cd.length - 8)) 0)) := by
  have h0 : ¬chunkDefaultSize = 0 := by decide
  have h1 : ¬chunkDefaultSize < cd.length - 8 := by
    simp only [chunkDefaultSize] at hC ⊢
    omega
  unfold hasherStoreDecrypt newSpanEncryption newDataEncryption encApply
  simp [h0, h1]

/-- C6: decrypting the encryption of a chunk payload under the same key gives
the payload back: the span and data encryptors are instantiated identically
from the key on both sides (hasherStore.decrypt calls the same Encrypt
operation as hasherStore.encrypt) and the keystream XOR is its own inverse,
so the decrypted span equals the original span, the decrypted data is the
original data followed by the zero padding, and its prefix of the original
data length is exactly the original data. -/
theorem encrypt_then_decrypt_roundtrip (G : Bytes → Nat → Nat → Nat)
    (hst : HStore) (key cd : Bytes) (h8 : 8 ≤ cd.length)
    (hC : cd.length ≤ 8 + chunkDefaultSize) :
    (hasherStoreEncrypt G hst key cd).bind
        (fun pr => hasherStoreDecrypt G hst key (pr.1 ++ pr.2)) =
      some (cd.take 8,
        cd.drop 8 ++ List.replicate (chunkDefaultSize - (cd.length - 8)) 0) ∧
    (cd.drop 8 ++ List.replicate (chunkDefaultSize - (cd.length - 8)) 0).take
        (cd.length - 8) = cd.drop 8 := by
  have hC8 : chunkDefaultSize = 4096 := rfl
  have htake8 : (cd.take 8).length = 8 := by
    simp only [List.length_take]
    omega
  have hpadlen : (cd.drop 8 ++ List.replicate (chunkDefaultSize - (cd.length - 8)) 0).length
      = chunkDefaultSize := by
    simp only [List.length_append, List.length_drop, List.length_replicate]
    simp only [chunkDefaultSize] at hC ⊢
    omega
  constructor
  · rw [hasherStoreEncrypt_eq G hst key cd hC]
    rw [Option.some_bind]
    set es := xorKeystream (G key (chunkDefaultSize / hst.refSize)) 0 (cd.take 8) with hes
    set ed := xorKeystream (G key 0) 0
      (cd.drop 8 ++ List.replicate (chunkDefaultSize - (cd.length - 8)) 0) with hed
    have heslen : es.length = 8 := by rw [hes, xorKeystream_length, htake8]
    have hedlen : ed.length = chunkDefaultSize := by rw [hed, xorKeystream_length, hpadlen]
    have hlen : (es ++ ed).length ≤ 8 + chunkDefaultSize := by
      simp [heslen, hedlen]
    rw [hasherStoreDecrypt_eq G hst key (es ++ ed) hlen]
    have htake : (es ++ ed).take 8 = es := by
      rw [← heslen]
      exact List.take_left es ed
    have hdrop : (es ++ ed).drop 8 = ed := by
      rw [← heslen]
      exact List.drop_left es ed
    have hrep0 : chunkDefaultSize - ((es ++ ed).length - 8) = 0 := by
      simp [heslen, hedlen]
    rw [htake, hdrop, hrep0]
    simp only [List.replicate_zero, List.append_nil]
    rw [hes, hed, xorKeystream_involution, xorKeystream_involution]
  · have hdroplen : (cd.drop 8).length = cd.length - 8 := by
      simp
    rw [← hdroplen]
    exact List.take_left _ _

/-- C6 witness: the round trip instantiated at an 8-byte payload (span only),
an arbitrary concrete keystream and a concrete key. -/
theorem encrypt_then_decrypt_roundtrip_witness :
    8 ≤ (lengthToSpan 5).length ∧ (lengthToSpan 5).length ≤ 8 + chunkDefaultSize ∧
    ((hasherStoreEncrypt (fun k c i => k.headD 0 + c + i) ⟨true⟩ [9] (lengthToSpan 5)).bind
        (fun pr => hasherStoreDecrypt (fun k c i => k.headD 0 + c + i) ⟨true⟩ [9]
          (pr.1 ++ pr.2)) =
      some ((lengthToSpan 5).take 8,
        (lengthToSpan 5).drop 8 ++
          List.replicate (chunkDefaultSize - ((lengthToSpan 5).length - 8)) 0) ∧
    ((lengthToSpan 5).drop 8 ++
        List.replicate (chunkDefaultSize - ((lengthToSpan 5).length - 8)) 0).take
        ((lengthToSpan 5).length - 8) = (lengthToSpan 5).drop 8) :=
  ⟨by decide, by decide,
    encrypt_then_decrypt_roundtrip (fun k c i => k.headD 0 + c + i) ⟨true⟩ [9]
      (lengthToSpan 5) (by decide) (by decide)⟩

/-- Helper: the reference size of the store is 64 with encryption and 32
without. -/
theorem HStore.refSize_eq (hst : HStore) :
    hst.refSize = if hst.toEncrypt then 64 else 32 := by
  rcases hst with ⟨t⟩
  cases t <;> rfl

/-- Helper: one trimming step strictly shrinks a length above the chunk
size (wrapped uint64 form): either no wrap occurs and the value shrinks as
for the ideal rule, or a wrap occurs and the value collapses below 2^58. -/
theorem decryptLoopArg_lt (hst : HStore) (l : Nat) (hc : chunkDefaultSize < l) :
    (l + (chunkDefaultSize - 1)) % 2 ^ 64 / chunkDefaultSize * hst.refSize % 2 ^ 64 < l := by
  rw [HStore.refSize_eq hst]
  cases hst.toEncrypt <;> norm_num [chunkDefaultSize] at hc ⊢ <;> omega

/-- Helper: one trimming step strictly shrinks a length above the chunk
size (spec-rule form). -/
theorem specArg_lt (b : Bool) (l : Nat) (hc : chunkDefaultSize < l) :
    (l + chunkDefaultSize - 1) / chunkDefaultSize * (if b then 64 else 32) < l := by
  cases b <;> norm_num [chunkDefaultSize] at hc ⊢ <;> omega

/-- Helper: as long as the uint64 addition does not wrap (the length stays
below 2^64 - (DefaultSize - 1) at entry, which every later iterate then also
satisfies), the padding-trimming loop of decryptChunkData computes exactly
the iterative meaningful-length rule worded by the spec. -/
theorem decryptLengthLoop_eq_spec (hst : HStore) :
    ∀ l, l + (chunkDefaultSize - 1) < 2 ^ 64 →
      decryptLengthLoop hst l = specMeaningfulLength hst.toEncrypt l := by
  intro l
  induction l using Nat.strong_induction_on with
  | _ l ih =>
    intro hnw
    rw [decryptLengthLoop.eq_def, specMeaningfulLength.eq_def]
    by_cases hc : chunkDefaultSize < l
    · rw [if_pos hc, if_pos hc]
      have harg : (l + (chunkDefaultSize - 1)) % 2 ^ 64 / chunkDefaultSize
            * hst.refSize % 2 ^ 64
          = (l + chunkDefaultSize - 1) / chunkDefaultSize *
            (if hst.toEncrypt then 64 else 32) := by
        rw [HStore.refSize_eq]
        cases hst.toEncrypt <;> norm_num [chunkDefaultSize] at hnw ⊢ <;> omega
      rw [harg]
      refine ih _ (specArg_lt hst.toEncrypt l hc) ?_
      have h := specArg_lt hst.toEncrypt l hc
      simp only [chunkDefaultSize] at hnw h ⊢
      omega
    · rw [if_neg hc, if_neg hc]

/-- Helper: the padding-trimming loop never returns more than a chunk of
meaningful bytes when the span exceeds the chunk size. -/
theorem decryptLengthLoop_le (hst : HStore) :
    ∀ l, chunkDefaultSize < l → decryptLengthLoop hst l ≤ chunkDefaultSize := by
  intro l
  induction l using Nat.strong_induction_on with
  | _ l ih =>
    intro hc
    rw [decryptLengthLoop.eq_def, if_pos hc]
    have hlt : (l + (chunkDefaultSize - 1)) % 2 ^ 64 / chunkDefaultSize
        * hst.refSize % 2 ^ 64 < l :=
      decryptLoopArg_lt hst l hc
    by_cases hc2 : chunkDefaultSize <
        (l + (chunkDefaultSize - 1)) % 2 ^ 64 / chunkDefaultSize * hst.refSize % 2 ^ 64
    · exact ih _ hlt hc2
    · rw [decryptLengthLoop.eq_def, if_neg hc2]
      omega

/-- C5 (amended): for a decrypted chunk whose span value exceeds
chunk.DefaultSize (an intermediate tree level) and stays below
2^64 - (DefaultSize - 1) — so that the uint64 addition of the trimming loop
does not wrap — the meaningful data length follows the iterative rule of the
spec: starting from the span value, while length > C replace length by
ceil(length/C)·refSize; and decryptChunkData returns exactly the 8 decrypted
span bytes followed by that many decrypted data bytes, every byte of padding
beyond them discarded.  For a span of at least 2^64 - (DefaultSize - 1) the
addition wraps and the code instead computes zero meaningful bytes. -/
theorem decryptChunkData_intermediate_levels (G : Bytes → Nat → Nat → Nat)
    (hst : HStore) (key cd ds : Bytes) (h8 : 8 ≤ cd.length)
    (hC : cd.length ≤ 8 + chunkDefaultSize)
    (hds : newSpanEncryption G hst key (cd.take 8) = some ds)
    (hspan : chunkDefaultSize < spanValue ds)
    (hnw : spanValue ds + (chunkDefaultSize - 1) < 2 ^ 64) :
    decryptChunkData G hst key cd =
      some (ds ++ (xorKeystream (G key 0) 0
        (cd.drop 8 ++ List.replicate (chunkDefaultSize - (cd.length - 8)) 0)).take
          (specMeaningfulLength hst.toEncrypt (spanValue ds))) ∧
    decryptLengthLoop hst (spanValue ds) =
      specMeaningfulLength hst.toEncrypt (spanValue ds) ∧
    specMeaningfulLength hst.toEncrypt (spanValue ds) ≤ chunkDefaultSize ∧
    ∀ r, decryptChunkData G hst key cd = some r →
      r.length = 8 + specMeaningfulLength hst.toEncrypt (spanValue ds) := by
  have hds' : ds = xorKeystream (G key (chunkDefaultSize / hst.refSize)) 0 (cd.take 8) := by
    unfold newSpanEncryption encApply at hds
    simp at hds
    exact hds.symm
  have hloop := decryptLengthLoop_eq_spec hst (spanValue ds) hnw
  have hle : specMeaningfulLength hst.toEncrypt (spanValue ds) ≤ chunkDefaultSize := by
    rw [← hloop]
    exact decryptLengthLoop_le hst _ hspan
  have hmain : decryptChunkData G hst key cd =
      some (ds ++ (xorKeystream (G key 0) 0
        (cd.drop 8 ++ List.replicate (chunkDefaultSize - (cd.length - 8)) 0)).take
          (specMeaningfulLength hst.toEncrypt (spanValue ds))) := by
    unfold decryptChunkData
    rw [if_neg (by omega)]
    rw [hasherStoreDecrypt_eq G hst key cd hC, ← hds']
    dsimp only
    rw [hloop]
  refine ⟨hmain, hloop, hle, ?_⟩
  intro r hr
  rw [hmain] at hr
  simp only [Option.some.injEq] at hr
  subst hr
  have hdslen : ds.length = 8 := by
    rw [hds', xorKeystream_length]
    simp only [List.length_take]
    omega
  have hddlen : (xorKeystream (G key 0) 0
      (cd.drop 8 ++ List.replicate (chunkDefaultSize - (cd.length - 8)) 0)).length
      = chunkDefaultSize := by
    rw [xorKeystream_length]
    simp only [List.length_append, List.length_drop, List.length_replicate]
    simp only [chunkDefaultSize] at hC ⊢
    omega
  simp only [List.length_append, List.length_take, hdslen, hddlen]
  omega

/-- C5 witness: the trimming instantiated at a payload carrying a span of
5000 (one level above the leaves) and a single data byte, under the zero
keystream. -/
theorem decryptChunkData_intermediate_levels_witness :
    newSpanEncryption zeroKeystream ⟨true⟩ (List.replicate 32 0)
        ((lengthToSpan 5000 ++ [7]).take 8) = some (lengthToSpan 5000) ∧
    chunkDefaultSize < spanValue (lengthToSpan 5000) ∧
    spanValue (lengthToSpan 5000) + (chunkDefaultSize - 1) < 2 ^ 64 ∧
    (decryptChunkData zeroKeystream ⟨true⟩ (List.replicate 32 0) (lengthToSpan 5000 ++ [7]) =
      some (lengthToSpan 5000 ++ (xorKeystream (zeroKeystream (List.replicate 32 0) 0) 0
        ((lengthToSpan 5000 ++ [7]).drop 8 ++
          List.replicate (chunkDefaultSize - ((lengthToSpan 5000 ++ [7] : Bytes).length - 8)) 0)).take
          (specMeaningfulLength (HStore.toEncrypt ⟨true⟩) (spanValue (lengthToSpan 5000)))) ∧
    decryptLengthLoop ⟨true⟩ (spanValue (lengthToSpan 5000)) =
      specMeaningfulLength (HStore.toEncrypt ⟨true⟩) (spanValue (lengthToSpan 5000)) ∧
    specMeaningfulLength (HStore.toEncrypt ⟨true⟩) (spanValue (lengthToSpan 5000)) ≤
      chunkDefaultSize ∧
    ∀ r, decryptChunkData zeroKeystream ⟨true⟩ (List.replicate 32 0)
        (lengthToSpan 5000 ++ [7]) = some r →
      r.length = 8 + specMeaningfulLength (HStore.toEncrypt ⟨true⟩)
        (spanValue (lengthToSpan 5000))) :=
  ⟨by decide, by decide, by decide,
    decryptChunkData_intermediate_levels zeroKeystream ⟨true⟩ (List.replicate 32 0)
      (lengthToSpan 5000 ++ [7]) (lengthToSpan 5000) (by decide) (by decide)
      (by decide) (by decide) (by decide)⟩

/-- C4 counterexample: a well-formed payload whose data part (3 bytes) is far
shorter than the 100 bytes of meaningful data implied by its decrypted span
is not rejected: decryptChunkData returns a successful result instead of an
InvalidChunkData error. -/
theorem decrypt_short_data_not_rejected :
    spanValue (lengthToSpan 100) = 100 ∧
    (lengthToSpan 100 ++ [1, 2, 3] : Bytes).length - 8 < 100 ∧
    (decryptChunkData zeroKeystream ⟨true⟩ (List.replicate 32 0)
      (lengthToSpan 100 ++ [1, 2, 3])).isSome = true := by
  refine ⟨by decide, by decide, ?_⟩
  unfold decryptChunkData hasherStoreDecrypt newSpanEncryption newDataEncryption encApply
  decide

/-- C5 counterexample: for a decrypted span of eight 0xFF bytes (span value
2^64 - 1, far above chunk.DefaultSize) the uint64 addition of the trimming
loop wraps modulo 2^64: (2^64 - 1 + 4095) mod 2^64 = 4094, the division then
gives 0, so the code computes zero meaningful bytes and decryptChunkData
returns the 8 span bytes with no data after them — while the iterative rule
of the claim yields 1024 data bytes. -/
theorem decrypt_intermediate_span_wraps :
    spanValue (List.replicate 8 255) = 2 ^ 64 - 1 ∧
    chunkDefaultSize < spanValue (List.replicate 8 255) ∧
    decryptLengthLoop ⟨true⟩ (spanValue (List.replicate 8 255)) = 0 ∧
    specMeaningfulLength true (spanValue (List.replicate 8 255)) = 1024 ∧
    decryptChunkData zeroKeystream ⟨true⟩ (List.replicate 32 0)
        (List.replicate 8 255 ++ [7]) = some (List.replicate 8 255) := by
  have hspan : spanValue (List.replicate 8 255) = 2 ^ 64 - 1 := by decide
  have hr : HStore.refSize ⟨true⟩ = 64 := by decide
  have hloop0 : decryptLengthLoop ⟨true⟩ (2 ^ 64 - 1) = 0 := by
    rw [decryptLengthLoop.eq_def, hr]
    norm_num [chunkDefaultSize]
    rw [decryptLengthLoop.eq_def]
    norm_num [chunkDefaultSize]
  have hspec : specMeaningfulLength true (2 ^ 64 - 1) = 1024 := by
    repeat (rw [specMeaningfulLength.eq_def]; norm_num [chunkDefaultSize])
  have hxor : xorKeystream
      (zeroKeystream (List.replicate 32 0) (chunkDefaultSize / HStore.refSize ⟨true⟩)) 0
      ((List.replicate 8 255 ++ [7]).take 8) = List.replicate 8 255 := by decide
  have hdec : decryptChunkData zeroKeystream ⟨true⟩ (List.replicate 32 0)
      (List.replicate 8 255 ++ [7]) = some (List.replicate 8 255) := by
    unfold decryptChunkData
    rw [if_neg (by decide)]
    rw [hasherStoreDecrypt_eq zeroKeystream ⟨true⟩ (List.replicate 32 0) _ (by decide)]
    dsimp only
    rw [hxor, hspan, hloop0]
    simp
  exact ⟨hspan, by rw [hspan]; norm_num [chunkDefaultSize], by rw [hspan]; exact hloop0,
    by rw [hspan]; exact hspec, hdec⟩

end Swarm
